import Mathlib

/-!
# Verification of the `async-service` request scheduler

This file gives a shallow embedding of `src/async-service.js` and proves
properties of its admission / pipe-serialization engine.

Embedding conventions:
* A JS `Call` object is identified by a natural-number id; the immutable data
  of the call object that the scheduler reads (`method`, `url`, `pipeName`,
  `prioritize`) is a `CallInfo` stored at index `id` of `SvcState.calls`
  (the list of all calls ever registered, in registration order).
* The sparse JS array `pending` (holes left by `delete pending[i]`) is a
  `List (Option Nat)`: `none` is a hole.
* The JS object `pipes` (pipe-name to array of calls) is an association list
  `List (String × List Nat)` in creation order; JS object string keys
  enumerate in insertion order and an assignment to an existing key keeps its
  position, which the `setPipe` (replace in place, else append) operation
  mirrors.
* `pipeName` is a `String`; the source reads `call.pipeName || false`, and the
  `Call` constructor defaults `pipeName` to `''`, so the empty string plays
  the role of "no pipe".
* Dispatching a call to the transport (`call.makeRequest()`, i.e. the
  `jQuery.ajax` invocation) is recorded by adding the call id to
  `dispatched` (ever dispatched) and `inFlight` (dispatched, transport has
  not called back yet).  A transport completion (`success` / `error`
  callback) consumes one `inFlight` entry.
* The promise collaborator: `promise.fulfill` / `promise.smash` are recorded
  in `fulfilled` / `smashed`; the `when` / `fail` completion callbacks that
  the source installs on the promise run `deregister`, which the model
  performs at the same point.
* `abandon()` sets the one-way `abandoned` flag, modelled as membership of
  the `abandoned` list.

The module-level unload-check registry (`unloadChecks`, `exports.unloadCheck`,
`window.onbeforeunload`) is modelled separately at the end of the file; the
scheduler only ever adds one entry per call at registration and removes it at
deregistration, and no scheduler claim depends on the registry contents.
-/

namespace AsyncService

/-- The fields of the JS call object read by the scheduler
(`register` / `deregister` / `abandon`). -/
structure CallInfo where
  method : String
  url : String
  pipeName : String
  prioritize : Bool
deriving DecidableEq, Repr

/-- Result of `register`: the source returns the strings
`'proceed'` / `'delay'`. -/
inductive Outcome where
  | proceed
  | delay
deriving DecidableEq, Repr

/-- The state owned by one `Service` closure, plus the bookkeeping needed to
talk about dispatches, transport callbacks, promise settlement and
abandonment. -/
structure SvcState where
  /-- Every call ever registered, in registration order; ids are indices. -/
  calls : List CallInfo
  /-- The sparse `pending` array; `none` is a hole left by `delete`. -/
  pending : List (Option Nat)
  /-- The `pipes` object: pipe name to queue of call ids. -/
  pipes : List (String × List Nat)
  /-- Ids whose `makeRequest()` has run (request issued to the transport). -/
  dispatched : List Nat
  /-- Ids dispatched whose transport callback has not fired yet. -/
  inFlight : List Nat
  /-- Ids whose `abandon()` has run (`abandoned = true`). -/
  abandoned : List Nat
  /-- Ids whose promise was fulfilled. -/
  fulfilled : List Nat
  /-- Ids whose promise was smashed (rejected). -/
  smashed : List Nat
deriving DecidableEq, Repr

/-- Ids whose promise has been settled (fulfilled or rejected). -/
def settledIds (s : SvcState) : List Nat := s.fulfilled ++ s.smashed

/-- The state of a freshly constructed `Service`. -/
def initState : SvcState := ⟨[], [], [], [], [], [], [], []⟩

/-- The slot-filling loop of `register`:
`for (i = 0; i <= pending.length; i++) if (!(i in pending)) { pending[i] = call; break; }`
fills the first hole, or appends when there is none. -/
def insertSlot : List (Option Nat) → Nat → List (Option Nat)
  | [], id => [some id]
  | none :: rest, id => some id :: rest
  | some x :: rest, id => some x :: insertSlot rest id

/-- `i = jQuery.inArray(call, pending); if (i > -1) { delete pending[i]; }`:
turn the first slot holding `id` into a hole (length is unchanged). -/
def removePending : List (Option Nat) → Nat → List (Option Nat)
  | [], _ => []
  | none :: rest, id => none :: removePending rest id
  | some x :: rest, id =>
      if x = id then none :: rest else some x :: removePending rest id

/-- Property of the sparse `pending` array: no id occupies two slots. -/
def pendDistinct (p : List (Option Nat)) : Prop :=
  ∀ (i j x : Nat), p[i]? = some (some x) → p[j]? = some (some x) → i = j

/-- `pipes[name]` read. -/
def lookupPipe : List (String × List Nat) → String → Option (List Nat)
  | [], _ => none
  | (k, q) :: rest, n => if k = n then some q else lookupPipe rest n

/-- `pipes[name] = q` write: replace the entry in place, else append
(JS object keys keep their insertion position on reassignment). -/
def setPipe : List (String × List Nat) → String → List Nat → List (String × List Nat)
  | [], n, v => [(n, v)]
  | (k, q) :: rest, n, v =>
      if k = n then (n, v) :: rest else (k, q) :: setPipe rest n v

/-- `if (!pipes[pipeName]) { pipes[pipeName] = []; }` — note an existing empty
array is truthy in JS, so an emptied pipe is never re-created. -/
def getOrCreate (ps : List (String × List Nat)) (n : String) : List (String × List Nat) :=
  match lookupPipe ps n with
  | none => ps ++ [(n, [])]
  | some _ => ps

/-- The pipe-insertion logic of `register`: with priority and a non-empty
pipe, `pipe.unshift(call)` followed by the element swap
`pipe[1] = [pipe[0], pipe[0] = pipe[1]][0]` leaves the previous head first
and the new call second; otherwise `pipe.push(call)`. -/
def pipeInsert (q : List Nat) (id : Nat) (prio : Bool) : List Nat :=
  if prio ∧ 0 < q.length then
    match q with
    | [] => [id]
    | h :: t => h :: id :: t
  else q ++ [id]

/-- `register(call)` (lines 44-85): slot the call into `pending`, then, when
it names a pipe, create the pipe if needed, insert (with the priority swap),
and answer `'delay'` when the pipe now holds more than one call; otherwise
`'proceed'`.  (The unload-check entry added at the same point lives in the
separately modelled module-level registry.)  The fresh call's id is
`s.calls.length`. -/
def registerStep (s : SvcState) (c : CallInfo) : SvcState × Outcome :=
  let id := s.calls.length
  let s1 : SvcState := { s with calls := s.calls ++ [c], pending := insertSlot s.pending id }
  if c.pipeName = "" then (s1, Outcome.proceed)
  else
    let ps1 := getOrCreate s1.pipes c.pipeName
    let q := (lookupPipe ps1 c.pipeName).getD []
    let q' := pipeInsert q id c.prioritize
    let s2 := { s1 with pipes := setPipe ps1 c.pipeName q' }
    (s2, if 1 < q'.length then Outcome.delay else Outcome.proceed)

/-- `call.makeRequest()`: issue the request to the transport. -/
def dispatchCall (s : SvcState) (id : Nat) : SvcState :=
  { s with dispatched := id :: s.dispatched, inFlight := id :: s.inFlight }

/-- Admission of one call, composing `register` with the dispatch-on-proceed
wiring of lines 199-201 (`'proceed' === …register(call)` runs
`call.makeRequest()`; the receiver typo on that line is treated separately,
see `callEntry`). -/
def applyRegister (s : SvcState) (c : CallInfo) : SvcState :=
  match registerStep s c with
  | (s', Outcome.proceed) => dispatchCall s' s.calls.length
  | (s', Outcome.delay) => s'

/-- `deregister(call)` (lines 87-114): drop the unload check, then, when the
call names a pipe, `pipe.shift()` the pipe's head (whether or not it is this
call) and `makeRequest` the new head when one exists; finally clear the
call's `pending` slot.  Errors model the `throw` on an unknown pipe. -/
def deregister (s : SvcState) (id : Nat) : Except String SvcState :=
  match s.calls[id]? with
  | none => Except.error "unknown call"
  | some c =>
    if c.pipeName = "" then
      Except.ok { s with pending := removePending s.pending id }
    else
      match lookupPipe s.pipes c.pipeName with
      | none => Except.error ("Unknown pipe \"" ++ c.pipeName ++ "\"")
      | some q =>
        let s1 := { s with pipes := setPipe s.pipes c.pipeName q.tail }
        let s2 := match q.tail with
          | [] => s1
          | nh :: _ => dispatchCall s1 nh
        Except.ok { s2 with pending := removePending s2.pending id }

/-- A transport callback firing for `id` (`success` when `ok`, `error`
otherwise): if the call was abandoned the callback returns at once; otherwise
the promise settles, which runs `deregister` through the promise's
`when` / `fail` hooks. -/
def completeStep (s : SvcState) (id : Nat) (ok : Bool) : Except String SvcState :=
  let s0 := { s with inFlight := s.inFlight.erase id }
  if id ∈ s.abandoned then Except.ok s0
  else
    let s1 := if ok then { s0 with fulfilled := id :: s0.fulfilled }
              else { s0 with smashed := id :: s0.smashed }
    deregister s1 id

/-- `call.abandon()`: set `abandoned = true`, then `deregister(call)`;
the promise is never settled here. -/
def abandonCall (s : SvcState) (id : Nat) : Except String SvcState :=
  deregister { s with abandoned := id :: s.abandoned } id

/-- The scan loop of `abandon(method, url)` (lines 206-213), iterating index
`i` over the (mutating) `pending` array; `delete` never changes the array's
length, so the initial length is an exact fuel. -/
def abandonFrom (m u : String) : Nat → Nat → SvcState → Except String SvcState
  | _, 0, s => Except.ok s
  | i, Nat.succ fuel, s =>
    if i < s.pending.length then
      match s.pending[i]? with
      | some (some id) =>
        match s.calls[id]? with
        | some c =>
          if c.method = m ∧ c.url = u then
            match abandonCall s id with
            | Except.ok s2 => abandonFrom m u (i + 1) fuel s2
            | Except.error e => Except.error e
          else abandonFrom m u (i + 1) fuel s
        | none => Except.error "unknown call"
      | _ => abandonFrom m u (i + 1) fuel s
    else Except.ok s

/-- `abandon(method, url)`: abandon every pending call matching the pair. -/
def abandonOp (s : SvcState) (m u : String) : Except String SvcState :=
  abandonFrom m u 0 s.pending.length s

/-- `pipeLength(pipeName)` (lines 126-132): throws on a name that has no
pipe, otherwise the pipe's current length. -/
def pipeLengthOp (s : SvcState) (n : String) : Except String Nat :=
  match lookupPipe s.pipes n with
  | none => Except.error ("Unknown pipe \"" ++ n ++ "\"")
  | some q => Except.ok q.length

/-- One externally observable step of the scheduler: admission of a fresh
call, a bare deregistration, a transport completion for an in-flight call,
or an `abandon(method, url)` sweep.  Steps that would `throw` do not fire. -/
inductive Step : SvcState → SvcState → Prop where
  | register {s : SvcState} (c : CallInfo) : Step s (applyRegister s c)
  | dereg {s s' : SvcState} (id : Nat) (h : deregister s id = Except.ok s') : Step s s'
  | complete {s s' : SvcState} (id : Nat) (ok : Bool) (hin : id ∈ s.inFlight)
      (h : completeStep s id ok = Except.ok s') : Step s s'
  | abandon {s s' : SvcState} (m u : String) (h : abandonOp s m u = Except.ok s') : Step s s'

/-- Reflexive-transitive reachability along scheduler steps. -/
inductive ReachableFrom : SvcState → SvcState → Prop where
  | refl (s : SvcState) : ReachableFrom s s
  | step {s t t' : SvcState} (h : ReachableFrom s t) (hs : Step t t') : ReachableFrom s t'

/-- States reachable from a freshly constructed `Service`. -/
def Reachable (s : SvcState) : Prop := ReachableFrom initState s

theorem ReachableFrom.trans {s t u : SvcState}
    (h1 : ReachableFrom s t) (h2 : ReachableFrom t u) : ReachableFrom s u := by
  induction h2 with
  | refl => exact h1
  | step _ hs ih => exact ReachableFrom.step ih hs

/-! ## Association-list lemmas for the pipe table -/

theorem lookup_setPipe_self (ps : List (String × List Nat)) (n : String) (v : List Nat) :
    lookupPipe (setPipe ps n v) n = some v := by
  induction ps with
  | nil => simp [setPipe, lookupPipe]
  | cons pr rest ih =>
    obtain ⟨k, q⟩ := pr
    by_cases hk : k = n
    · simp [setPipe, hk, lookupPipe]
    · simp [setPipe, hk, lookupPipe, ih]

theorem lookup_setPipe_ne (ps : List (String × List Nat)) (n m : String) (v : List Nat)
    (h : m ≠ n) : lookupPipe (setPipe ps n v) m = lookupPipe ps m := by
  induction ps with
  | nil => simp [setPipe, lookupPipe, Ne.symm h]
  | cons pr rest ih =>
    obtain ⟨k, q⟩ := pr
    by_cases hk : k = n
    · subst hk
      simp [setPipe, lookupPipe, Ne.symm h]
    · simp [setPipe, hk, lookupPipe, ih]

theorem outcome_proceed_iff (o : Outcome) : o = Outcome.proceed ↔ ¬o = Outcome.delay := by
  cases o <;> simp

/-- Claim C2: `register(call)` returns `delay` iff the call has a pipe name
and, after the call's insertion, that pipe's length is greater than one; in
every other case (no pipe name, or pipe length exactly one after insertion)
it returns `proceed`. -/
theorem C2_register_delay_iff (s : SvcState) (c : CallInfo) :
    ((registerStep s c).2 = Outcome.delay ↔
      c.pipeName ≠ "" ∧
        ∃ q, lookupPipe (registerStep s c).1.pipes c.pipeName = some q ∧ 1 < q.length) ∧
    ((registerStep s c).2 = Outcome.proceed ↔
      ¬(c.pipeName ≠ "" ∧
        ∃ q, lookupPipe (registerStep s c).1.pipes c.pipeName = some q ∧ 1 < q.length)) := by
  have hmain : (registerStep s c).2 = Outcome.delay ↔
      c.pipeName ≠ "" ∧
        ∃ q, lookupPipe (registerStep s c).1.pipes c.pipeName = some q ∧ 1 < q.length := by
    by_cases hc : c.pipeName = ""
    · simp [registerStep, hc]
    · simp only [registerStep, if_neg hc]
      rw [lookup_setPipe_self]
      constructor
      · intro hd
        split at hd
        · rename_i hq
          exact ⟨hc, _, rfl, hq⟩
        · exact absurd hd (by simp)
      · rintro ⟨-, q, hq, hlen⟩
        cases Option.some.inj hq
        simp [hlen]
  refine ⟨hmain, ?_⟩
  rw [outcome_proceed_iff, hmain]

/-! ## Claim C6: callbacks after abandonment are no-ops -/

/-- Claim C6: once a call has been abandoned, a transport success or error
callback firing for it is a no-op: the promise is neither fulfilled nor
rejected and no deregistration or other bookkeeping runs again — the
resulting state differs only in that the in-flight transport request has
been consumed. -/
theorem C6_abandoned_callback_noop (s : SvcState) (id : Nat) (ok : Bool)
    (h : id ∈ s.abandoned) :
    completeStep s id ok = Except.ok { s with inFlight := s.inFlight.erase id } := by
  simp [completeStep, h]

/-- A state with call 0 abandoned while its request is still in flight. -/
def c6State : SvcState :=
  ⟨[⟨"GET", "/x", "", false⟩], [], [], [0], [0], [0], [], []⟩

theorem C6_witness :
    0 ∈ c6State.abandoned ∧
      completeStep c6State 0 true =
        Except.ok { c6State with inFlight := c6State.inFlight.erase 0 } :=
  ⟨by decide, C6_abandoned_callback_noop c6State 0 true (by decide)⟩

/-! ## Claims C1 and C7: the `Call(args)` entry path -/

/-- The argument object accepted by `Call(args)`.  Absent optional string
fields are modelled as the empty string (JS `undefined` and `''` behave the
same in the `args.x || default` reads of the constructor); absent booleans
are `false`. -/
structure CallArgs where
  url : String
  method : String
  data : List (String × String)
  readOnly : Bool
  pipeName : String
  prioritize : Bool
  sync : Bool
deriving DecidableEq, Repr

/-- The call object literal of lines 150-165, with the `args.x || default`
reads applied.  Note the object stores the synchronous disposition as
`async: !(args.sync || false)`; it has no `sync` property. -/
structure BuiltCall where
  url : String
  method : String
  data : List (String × String)
  readOnly : Bool
  pipeName : String
  prioritize : Bool
  async : Bool
deriving DecidableEq, Repr

def buildCall (args : CallArgs) : BuiltCall :=
  { url := args.url
    method := if args.method = "" then "GET" else args.method
    data := args.data
    readOnly := args.readOnly
    pipeName := args.pipeName
    prioritize := args.prioritize
    async := !args.sync }

/-- What the caller of `Call(args)` observes. -/
inductive CallOutcome where
  /-- The returned promise was synchronously smashed with this reason. -/
  | rejected (msg : String)
  /-- The entry path threw; no promise is returned. -/
  | thrown (msg : String)
deriving DecidableEq, Repr

/-- The entry path of `Call(args)` (lines 197-203).  The read-only gate
smashes the promise synchronously and returns it without touching any
Service state.  Past the gate, line 199 evaluates `pending.register(call)`:
`pending` is the plain pending array, which has no `register` property, so
the property read yields `undefined` and invoking it throws a `TypeError`
before any registration or dispatch can happen (the local function
`register` is never invoked anywhere in the file; additionally, even under
the evidently intended `register(call)` wiring, `makeRequest` would pass
`'async': !call.sync`, and since the call object defines `async` rather
than `sync` this always evaluates to `true`, dropping the synchronous
flag). -/
def callEntry (serviceReadOnly : Bool) (s : SvcState) (args : CallArgs) :
    SvcState × CallOutcome :=
  let call := buildCall args
  if !call.readOnly && serviceReadOnly then
    (s, CallOutcome.rejected "All non read-only requests have been disabled!")
  else
    (s, CallOutcome.thrown "pending.register is not a function")

/-- Claim C7: a non-read-only call on a read-only Service gets its promise
rejected synchronously with the gate message, and the Service state is left
completely untouched: the call is never slotted into the pending set, never
registered, never dispatched. -/
theorem C7_readonly_gate (s : SvcState) (args : CallArgs) (h : args.readOnly = false) :
    callEntry true s args =
      (s, CallOutcome.rejected "All non read-only requests have been disabled!") := by
  simp [callEntry, buildCall, h]

theorem C7_witness :
    (⟨"/x", "", [], false, "", false, false⟩ : CallArgs).readOnly = false ∧
      callEntry true initState ⟨"/x", "", [], false, "", false, false⟩ =
        (initState, CallOutcome.rejected "All non read-only requests have been disabled!") :=
  ⟨rfl, C7_readonly_gate initState ⟨"/x", "", [], false, "", false, false⟩ rfl⟩

/-- Claim C1 is refuted by the code: a call that passes the read-only gate
never has its request issued to the transport.  Line 199 invokes
`pending.register(call)` on the plain `pending` array, which has no
`register` method, so the entry path throws a `TypeError` and the Service
state (pending set, pipes, dispatch record) is left unchanged — here shown
for a gate-passing synchronous call on a fresh default Service. -/
theorem C1_call_throws :
    callEntry false initState ⟨"/x", "", [], false, "", false, true⟩ =
      (initState, CallOutcome.thrown "pending.register is not a function") := rfl

/-! ## Claim C4: priority promotion goes to second place -/

/-- Admit C1 (id 0) on pipe `p`, then C2 (id 1) on `p` without priority,
then C3 (id 2) on `p` with priority. -/
def prioScenario (p : String) : SvcState :=
  applyRegister (applyRegister (applyRegister initState
    ⟨"GET", "/c1", p, false⟩) ⟨"GET", "/c2", p, false⟩) ⟨"GET", "/c3", p, true⟩

/-- What claim C4 asserts about the scenario: after the three admissions the
pipe reads head-C1, then C3, then C2, with only the head C1 dispatched;
completing C1 dispatches C3, and completing C3 dispatches C2, so the
all-time dispatch record (most recent first) ends as C2, C3, C1. -/
def prioProp (p : String) : Prop :=
  lookupPipe (prioScenario p).pipes p = some [0, 2, 1] ∧
  (prioScenario p).dispatched = [0] ∧
  ∃ s4, completeStep (prioScenario p) 0 true = Except.ok s4 ∧
    s4.dispatched = [2, 0] ∧ lookupPipe s4.pipes p = some [2, 1] ∧
    ∃ s5, completeStep s4 2 true = Except.ok s5 ∧
      s5.dispatched = [1, 2, 0] ∧ lookupPipe s5.pipes p = some [1]

/-- Claim C4: for any pipe name, admitting C1, then C2 without priority,
then C3 with priority, yields dispatch order C1, C3, C2 — the priority
insertion puts C3 second in line, behind the already-dispatched head C1 and
ahead of C2, and never reorders the dispatched head. -/
theorem C4_priority_order (p : String) (hp : p ≠ "") : prioProp p := by
  have e3 : prioScenario p =
      ⟨[⟨"GET", "/c1", p, false⟩, ⟨"GET", "/c2", p, false⟩, ⟨"GET", "/c3", p, true⟩],
        [some 0, some 1, some 2], [(p, [0, 2, 1])], [0], [0], [], [], []⟩ := by
    simp [prioScenario, applyRegister, registerStep, insertSlot, getOrCreate, lookupPipe,
      setPipe, pipeInsert, dispatchCall, initState, hp]
  refine ⟨?_, ?_, ?_⟩
  · rw [e3]; simp [lookupPipe]
  · rw [e3]
  · refine ⟨⟨[⟨"GET", "/c1", p, false⟩, ⟨"GET", "/c2", p, false⟩, ⟨"GET", "/c3", p, true⟩],
      [none, some 1, some 2], [(p, [2, 1])], [2, 0], [2], [], [0], []⟩, ?_, rfl, ?_, ?_⟩
    · rw [e3]
      simp [completeStep, deregister, dispatchCall, lookupPipe, setPipe, removePending, hp]
    · simp [lookupPipe]
    · refine ⟨⟨[⟨"GET", "/c1", p, false⟩, ⟨"GET", "/c2", p, false⟩, ⟨"GET", "/c3", p, true⟩],
        [none, some 1, none], [(p, [1])], [1, 2, 0], [1], [], [2, 0], []⟩, ?_, rfl, ?_⟩
      · simp [completeStep, deregister, dispatchCall, lookupPipe, setPipe, removePending, hp]
      · simp [lookupPipe]

theorem C4_witness : ("p" : String) ≠ "" ∧ prioProp "p" :=
  ⟨by decide, C4_priority_order "p" (by decide)⟩

/-! ## Claims C9 and C10: the unload-check registry and the unload handler

The registry `unloadChecks` is a module-level JS object mapping check name to
a zero-argument producer of warning text.  Producers may be impure (the
handler deliberately invokes one twice), so a producer is modelled as a
function from its invocation count (0 for its first call during one handler
run, 1 for its second) to the returned string.  The object is modelled as an
association list in key-insertion order, which is how JS enumerates string
keys in `for..in`. -/

/-- A registered check: invocation count during one handler run to text. -/
abbrev Producer := Nat → String

abbrev Registry := List (String × Producer)

/-- `unloadChecks[name]` read. -/
def lookupCheck : Registry → String → Option Producer
  | [], _ => none
  | (k, f) :: rest, n => if k = n then some f else lookupCheck rest n

/-- `unloadChecks[name] = check`: replace in place, else append. -/
def setCheck : Registry → String → Producer → Registry
  | [], n, c => [(n, c)]
  | (k, f) :: rest, n, c =>
      if k = n then (n, c) :: rest else (k, f) :: setCheck rest n c

/-- `delete unloadChecks[name]`. -/
def deleteCheck : Registry → String → Registry
  | [], _ => []
  | (k, f) :: rest, n => if k = n then rest else (k, f) :: deleteCheck rest n

/-- `exports.unloadCheck(name, check)` (lines 237-261).  A falsy `name` is
replaced by a generated UUID, modelled by the oracle argument `fresh` (the
UUID comes from `Math.random`); a one-argument call (`check` omitted)
deletes the entry and returns `undefined`; otherwise the producer is stored
under the name, which is returned. -/
def unloadCheck (reg : Registry) (fresh : String) (name : String)
    (check : Option Producer) : Registry × Option String :=
  let name := if name = "" then fresh else name
  match check with
  | none => (deleteCheck reg name, none)
  | some c => (setCheck reg name c, some name)

theorem lookupCheck_setCheck_self (reg : Registry) (n : String) (c : Producer) :
    lookupCheck (setCheck reg n c) n = some c := by
  induction reg with
  | nil => simp [setCheck, lookupCheck]
  | cons pr rest ih =>
    obtain ⟨k, f⟩ := pr
    by_cases hk : k = n
    · simp [setCheck, hk, lookupCheck]
    · simp [setCheck, hk, lookupCheck, ih]

theorem lookupCheck_setCheck_ne (reg : Registry) (n m : String) (c : Producer)
    (h : m ≠ n) : lookupCheck (setCheck reg n c) m = lookupCheck reg m := by
  induction reg with
  | nil => simp [setCheck, lookupCheck, Ne.symm h]
  | cons pr rest ih =>
    obtain ⟨k, f⟩ := pr
    by_cases hk : k = n
    · subst hk
      simp [setCheck, lookupCheck, Ne.symm h]
    · simp [setCheck, hk, lookupCheck, ih]

theorem keys_setCheck_of_mem (reg : Registry) (n : String) (c : Producer)
    (h : n ∈ reg.map Prod.fst) :
    (setCheck reg n c).map Prod.fst = reg.map Prod.fst := by
  induction reg with
  | nil => simp at h
  | cons pr rest ih =>
    obtain ⟨k, f⟩ := pr
    by_cases hk : k = n
    · simp [setCheck, hk]
    · have : n ∈ rest.map Prod.fst := by
        simp at h
        rcases h with h | h
        · exact absurd h.symm hk
        · simpa using h
      simp [setCheck, hk, ih this]

/-- Claim C9: calling the two-argument `unloadCheck(name, producer)` for a
`name` already present in the registry replaces the producer stored under
that name, returns that same name, raises no error, and leaves every other
entry (and the key set) unchanged. -/
theorem C9_unloadCheck_replace (reg : Registry) (fresh name : String) (c : Producer)
    (h1 : name ≠ "") (h2 : name ∈ reg.map Prod.fst) :
    (unloadCheck reg fresh name (some c)).2 = some name ∧
    lookupCheck (unloadCheck reg fresh name (some c)).1 name = some c ∧
    (∀ m, m ≠ name → lookupCheck (unloadCheck reg fresh name (some c)).1 m = lookupCheck reg m) ∧
    (unloadCheck reg fresh name (some c)).1.map Prod.fst = reg.map Prod.fst := by
  refine ⟨?_, ?_, ?_, ?_⟩
  · simp [unloadCheck, h1]
  · simp [unloadCheck, h1, lookupCheck_setCheck_self]
  · intro m hm
    simp [unloadCheck, h1, lookupCheck_setCheck_ne reg name m c hm]
  · simp [unloadCheck, h1, keys_setCheck_of_mem reg name c h2]

theorem C9_witness :
    ("a" : String) ≠ "" ∧ ("a" : String) ∈ ([("a", fun _ => "old")] : Registry).map Prod.fst ∧
      ((unloadCheck [("a", fun _ => "old")] "f" "a" (some fun _ => "new")).2 = some "a" ∧
        lookupCheck (unloadCheck [("a", fun _ => "old")] "f" "a" (some fun _ => "new")).1 "a" =
          some (fun _ => "new") ∧
        (∀ m, m ≠ "a" →
          lookupCheck (unloadCheck [("a", fun _ => "old")] "f" "a" (some fun _ => "new")).1 m =
            lookupCheck [("a", fun _ => "old")] m) ∧
        (unloadCheck [("a", fun _ => "old")] "f" "a" (some fun _ => "new")).1.map Prod.fst =
          ([("a", fun _ => "old")] : Registry).map Prod.fst) :=
  ⟨by decide, by simp,
    C9_unloadCheck_replace [("a", fun _ => "old")] "f" "a" (fun _ => "new") (by decide) (by simp)⟩

/-- The message-accumulation loop of `window.onbeforeunload` (lines 263-292):
each registered producer is called once (`check = unloadChecks[i]()`); when
the result is truthy the producer is called again and that second result,
plus a newline, is appended to the message. -/
def runChecks (reg : Registry) : String :=
  reg.foldl (fun msg pr => if pr.2 0 = "" then msg else msg ++ (pr.2 1 ++ "\n")) ""

/-- The unload handler: an empty accumulated message means no prompt
(the handler returns `undefined`); otherwise the message is the prompt. -/
def onBeforeUnload (reg : Registry) : Option String :=
  let message := runChecks reg
  if message = "" then none else some message

/-- As claim C10 words it: the producers whose first invocation returns a
non-empty string each contribute their second invocation's result followed
by a newline. -/
def unloadPieces (reg : Registry) : List String :=
  (reg.filter (fun pr => !(pr.2 0 == ""))).map (fun pr => pr.2 1 ++ "\n")

/-- Claim C10, stated over the pieces: no prompt when no producer tests
non-empty, otherwise the concatenation of the second-invocation results. -/
def unloadMessageSpec (reg : Registry) : Option String :=
  if unloadPieces reg = [] then none else some (String.join (unloadPieces reg))

theorem string_join_cons (a : String) (l : List String) :
    String.join (a :: l) = a ++ String.join l := by
  simp [String.join_eq]
  cases a with
  | mk d => rfl

theorem string_eq_empty_of_length (a : String) (h : a.length = 0) : a = "" := by
  cases a with
  | mk d => simp [String.length] at h; simp [h]

theorem runChecks_eq_join (reg : Registry) :
    runChecks reg = String.join (unloadPieces reg) := by
  suffices h : ∀ (msg : String),
      List.foldl (fun msg pr => if pr.2 0 = "" then msg else msg ++ (pr.2 1 ++ "\n")) msg reg =
        msg ++ String.join (unloadPieces reg) by
    have := h ""
    simpa [runChecks] using this
  induction reg with
  | nil => intro msg; simp [unloadPieces, String.join]
  | cons pr rest ih =>
    intro msg
    by_cases h0 : pr.2 0 = ""
    · simp [unloadPieces, List.filter, h0, ih]
    · simp only [List.foldl_cons, if_neg h0]
      rw [ih]
      have hp : unloadPieces (pr :: rest) = (pr.2 1 ++ "\n") :: unloadPieces rest := by
        simp [unloadPieces, List.filter_cons, h0]
      rw [hp, string_join_cons, String.append_assoc]

theorem join_unloadPieces_eq_empty_iff (reg : Registry) :
    String.join (unloadPieces reg) = "" ↔ unloadPieces reg = [] := by
  constructor
  · intro h
    cases hp : unloadPieces reg with
    | nil => rfl
    | cons a l =>
      exfalso
      rw [hp, string_join_cons] at h
      have hl : a.length + (String.join l).length = 0 := by
        have := congrArg String.length h
        rwa [String.length_append, show String.length "" = 0 from rfl] at this
      have ha : a ∈ unloadPieces reg := by rw [hp]; exact List.mem_cons_self a l
      simp only [unloadPieces] at ha
      obtain ⟨pr, -, hpr⟩ := List.mem_map.mp ha
      have hal : a.length = (pr.2 1).length + 1 := by
        rw [← hpr, String.length_append]
        rfl
      omega
  · intro h
    rw [h]
    rfl

/-- Claim C10: in one run of the unload handler every registered producer is
invoked once to test its output; each producer whose first result is
non-empty is invoked a second time and the second invocation's result (not
the first) is appended to the message followed by a newline; if every
producer's first output is empty, the handler produces no message and no
prompt is shown. -/
theorem C10_unload_message (reg : Registry) :
    onBeforeUnload reg = unloadMessageSpec reg ∧
    (onBeforeUnload reg = none ↔ ∀ pr ∈ reg, pr.2 0 = "") := by
  have hspec : onBeforeUnload reg = unloadMessageSpec reg := by
    rw [onBeforeUnload, unloadMessageSpec, runChecks_eq_join]
    by_cases h : unloadPieces reg = []
    · rw [if_pos ((join_unloadPieces_eq_empty_iff reg).mpr h), if_pos h]
    · rw [if_neg (fun hc => h ((join_unloadPieces_eq_empty_iff reg).mp hc)), if_neg h]
  refine ⟨hspec, ?_⟩
  rw [hspec, unloadMessageSpec]
  constructor
  · intro h pr hpr
    by_contra h0
    have hmem : (pr.2 1 ++ "\n") ∈ unloadPieces reg := by
      simp only [unloadPieces, List.mem_map]
      exact ⟨pr, List.mem_filter.mpr ⟨hpr, by simpa using h0⟩, rfl⟩
    rcases hp : unloadPieces reg with _ | ⟨a, l⟩
    · rw [hp] at hmem; simp at hmem
    · rw [if_neg (by simp [hp])] at h
      simp at h
  · intro h
    have : unloadPieces reg = [] := by
      simp only [unloadPieces, List.map_eq_nil_iff, List.filter_eq_nil_iff]
      intro pr hpr
      simp [h pr hpr]
    simp [this]

/-! ## Lemmas about the sparse pending array -/

theorem mem_insertSlot {p : List (Option Nat)} {id y : Nat}
    (h : some y ∈ insertSlot p id) : y = id ∨ some y ∈ p := by
  induction p with
  | nil =>
    simp [insertSlot] at h
    exact Or.inl h
  | cons a rest ih =>
    cases a with
    | none =>
      simp only [insertSlot] at h
      rcases List.mem_cons.mp h with h | h
      · exact Or.inl (Option.some.inj h)
      · exact Or.inr (List.mem_cons_of_mem _ h)
    | some x =>
      simp only [insertSlot] at h
      rcases List.mem_cons.mp h with h | h
      · exact Or.inr (h ▸ List.mem_cons_self _ _)
      · rcases ih h with h | h
        · exact Or.inl h
        · exact Or.inr (List.mem_cons_of_mem _ h)

theorem mem_removePending {p : List (Option Nat)} {x y : Nat}
    (h : some y ∈ removePending p x) : some y ∈ p := by
  induction p with
  | nil => simpa [removePending] using h
  | cons a rest ih =>
    cases a with
    | none =>
      simp only [removePending] at h
      rcases List.mem_cons.mp h with h | h
      · exact absurd h (by simp)
      · exact List.mem_cons_of_mem _ (ih h)
    | some z =>
      by_cases hz : z = x
      · rw [removePending, if_pos hz] at h
        rcases List.mem_cons.mp h with h | h
        · exact absurd h (by simp)
        · exact List.mem_cons_of_mem _ h
      · rw [removePending, if_neg hz] at h
        rcases List.mem_cons.mp h with h | h
        · exact h ▸ List.mem_cons_self _ _
        · exact List.mem_cons_of_mem _ (ih h)

theorem length_removePending (p : List (Option Nat)) (x : Nat) :
    (removePending p x).length = p.length := by
  induction p with
  | nil => rfl
  | cons a rest ih =>
    cases a with
    | none => simp [removePending, ih]
    | some z =>
      by_cases hz : z = x
      · simp [removePending, hz]
      · simp [removePending, hz, ih]

theorem getElem?_removePending_ne {p : List (Option Nat)} {x y j : Nat}
    (h : p[j]? = some (some y)) (hne : y ≠ x) :
    (removePending p x)[j]? = some (some y) := by
  induction p generalizing j with
  | nil => simp at h
  | cons a rest ih =>
    cases j with
    | zero =>
      rw [List.getElem?_cons_zero] at h
      cases Option.some.inj h
      rw [removePending, if_neg hne]
      exact List.getElem?_cons_zero
    | succ j =>
      rw [List.getElem?_cons_succ] at h
      cases a with
      | none => rw [removePending, List.getElem?_cons_succ]; exact ih h
      | some z =>
        by_cases hz : z = x
        · rw [removePending, if_pos hz, List.getElem?_cons_succ]; exact h
        · rw [removePending, if_neg hz, List.getElem?_cons_succ]; exact ih h

theorem getElem?_removePending_some {p : List (Option Nat)} {x y j : Nat}
    (h : (removePending p x)[j]? = some (some y)) : p[j]? = some (some y) := by
  induction p generalizing j with
  | nil => simpa [removePending] using h
  | cons a rest ih =>
    cases a with
    | none =>
      rw [removePending] at h
      cases j with
      | zero => simpa using h
      | succ j =>
        rw [List.getElem?_cons_succ] at h
        rw [List.getElem?_cons_succ]
        exact ih h
    | some z =>
      by_cases hz : z = x
      · rw [removePending, if_pos hz] at h
        cases j with
        | zero => simpa using h
        | succ j => rw [List.getElem?_cons_succ] at h; rw [List.getElem?_cons_succ]; exact h
      · rw [removePending, if_neg hz] at h
        cases j with
        | zero => simpa using h
        | succ j =>
          rw [List.getElem?_cons_succ] at h
          rw [List.getElem?_cons_succ]
          exact ih h

theorem pendDistinct_shift {a : Option Nat} {p : List (Option Nat)}
    (h : pendDistinct (a :: p)) : pendDistinct p := by
  intro i j x hi hj
  have := h (i + 1) (j + 1) x (by rwa [List.getElem?_cons_succ]) (by rwa [List.getElem?_cons_succ])
  omega

theorem pendDistinct_head_not_mem {x : Nat} {p : List (Option Nat)}
    (h : pendDistinct (some x :: p)) : some x ∉ p := by
  intro hmem
  obtain ⟨j, hj⟩ := List.mem_iff_getElem?.mp hmem
  have := h 0 (j + 1) x (by rw [List.getElem?_cons_zero]) (by rwa [List.getElem?_cons_succ])
  omega

theorem not_mem_removePending {p : List (Option Nat)} {x : Nat}
    (hd : pendDistinct p) : some x ∉ removePending p x := by
  induction p with
  | nil => simp [removePending]
  | cons a rest ih =>
    cases a with
    | none =>
      rw [removePending]
      intro h
      rcases List.mem_cons.mp h with h | h
      · exact absurd h (by simp)
      · exact ih (pendDistinct_shift hd) h
    | some z =>
      by_cases hz : z = x
      · rw [removePending, if_pos hz]
        subst hz
        intro h
        rcases List.mem_cons.mp h with h | h
        · exact absurd h (by simp)
        · exact pendDistinct_head_not_mem hd h
      · rw [removePending, if_neg hz]
        intro h
        rcases List.mem_cons.mp h with h | h
        · exact hz (Option.some.inj h).symm
        · exact ih (pendDistinct_shift hd) h

theorem pendDistinct_removePending {p : List (Option Nat)} {x : Nat}
    (hd : pendDistinct p) : pendDistinct (removePending p x) := by
  intro i j y hi hj
  exact hd i j y (getElem?_removePending_some hi) (getElem?_removePending_some hj)

theorem mem_of_getElem?_opt {p : List (Option Nat)} {j y : Nat}
    (h : p[j]? = some (some y)) : some y ∈ p :=
  List.mem_iff_getElem?.mpr ⟨j, h⟩

theorem pendDistinct_cons_none {p : List (Option Nat)} (h : pendDistinct p) :
    pendDistinct (none :: p) := by
  intro i j x hi hj
  cases i with
  | zero => simp at hi
  | succ i =>
    cases j with
    | zero => simp at hj
    | succ j =>
      rw [List.getElem?_cons_succ] at hi hj
      have := h i j x hi hj
      omega

theorem pendDistinct_cons_some {z : Nat} {p : List (Option Nat)}
    (h : pendDistinct p) (hz : some z ∉ p) : pendDistinct (some z :: p) := by
  intro i j x hi hj
  cases i with
  | zero =>
    rw [List.getElem?_cons_zero] at hi
    cases Option.some.inj (Option.some.inj hi)
    cases j with
    | zero => rfl
    | succ j =>
      rw [List.getElem?_cons_succ] at hj
      exact absurd (mem_of_getElem?_opt hj) hz
  | succ i =>
    cases j with
    | zero =>
      rw [List.getElem?_cons_zero] at hj
      cases Option.some.inj (Option.some.inj hj)
      rw [List.getElem?_cons_succ] at hi
      exact absurd (mem_of_getElem?_opt hi) hz
    | succ j =>
      rw [List.getElem?_cons_succ] at hi hj
      have := h i j x hi hj
      omega

theorem pendDistinct_insertSlot {p : List (Option Nat)} {id : Nat}
    (hd : pendDistinct p) (hnm : some id ∉ p) : pendDistinct (insertSlot p id) := by
  induction p with
  | nil =>
    intro i j x hi hj
    cases i with
    | zero =>
      cases j with
      | zero => rfl
      | succ j => simp [insertSlot] at hj
    | succ i => simp [insertSlot] at hi
  | cons a rest ih =>
    cases a with
    | none =>
      rw [insertSlot]
      refine pendDistinct_cons_some (pendDistinct_shift hd) ?_
      intro h
      exact hnm (List.mem_cons_of_mem _ h)
    | some z =>
      rw [insertSlot]
      have hz : some z ∉ insertSlot rest id := by
        intro h
        rcases mem_insertSlot h with h | h
        · exact hnm (h ▸ List.mem_cons_self _ _)
        · exact pendDistinct_head_not_mem hd h
      exact pendDistinct_cons_some
        (ih (pendDistinct_shift hd) (fun h => hnm (List.mem_cons_of_mem _ h))) hz

/-! ## Lemmas about the pipe table -/

theorem mem_setPipe {ps : List (String × List Nat)} {n : String} {v : List Nat}
    {pr : String × List Nat} (h : pr ∈ setPipe ps n v) : pr = (n, v) ∨ pr ∈ ps := by
  induction ps with
  | nil => simpa [setPipe] using h
  | cons hd rest ih =>
    obtain ⟨k, q⟩ := hd
    by_cases hk : k = n
    · rw [setPipe, if_pos hk] at h
      rcases List.mem_cons.mp h with h | h
      · exact Or.inl h
      · exact Or.inr (List.mem_cons_of_mem _ h)
    · rw [setPipe, if_neg hk] at h
      rcases List.mem_cons.mp h with h | h
      · exact Or.inr (h ▸ List.mem_cons_self _ _)
      · rcases ih h with h | h
        · exact Or.inl h
        · exact Or.inr (List.mem_cons_of_mem _ h)

theorem fst_mem_keys {ps : List (String × List Nat)} {pr : String × List Nat}
    (h : pr ∈ ps) : pr.1 ∈ ps.map Prod.fst :=
  List.mem_map_of_mem Prod.fst h

theorem lookupPipe_isSome_iff (ps : List (String × List Nat)) (n : String) :
    (lookupPipe ps n).isSome ↔ n ∈ ps.map Prod.fst := by
  induction ps with
  | nil => simp [lookupPipe]
  | cons hd rest ih =>
    obtain ⟨k, q⟩ := hd
    by_cases hk : k = n
    · simp [lookupPipe, hk]
    · simp [lookupPipe, hk, ih]
      intro hnk
      exact absurd hnk.symm hk

theorem mem_of_lookupPipe {ps : List (String × List Nat)} {n : String} {q : List Nat}
    (h : lookupPipe ps n = some q) : (n, q) ∈ ps := by
  induction ps with
  | nil => simp [lookupPipe] at h
  | cons hd rest ih =>
    obtain ⟨k, w⟩ := hd
    by_cases hk : k = n
    · rw [lookupPipe, if_pos hk] at h
      cases Option.some.inj h
      exact hk ▸ List.mem_cons_self _ _
    · rw [lookupPipe, if_neg hk] at h
      exact List.mem_cons_of_mem _ (ih h)

theorem keys_setPipe_of_mem {ps : List (String × List Nat)} {n : String} {v : List Nat}
    (h : n ∈ ps.map Prod.fst) : (setPipe ps n v).map Prod.fst = ps.map Prod.fst := by
  induction ps with
  | nil => simp at h
  | cons hd rest ih =>
    obtain ⟨k, q⟩ := hd
    by_cases hk : k = n
    · simp [setPipe, hk]
    · have hn : n ∈ rest.map Prod.fst := by
        simp at h
        rcases h with h | h
        · exact absurd h.symm hk
        · simpa using h
      simp [setPipe, hk, ih hn]

theorem lookup_eq_of_mem_nodup {ps : List (String × List Nat)}
    (hnd : (ps.map Prod.fst).Nodup) {n : String} {q : List Nat} (h : (n, q) ∈ ps) :
    lookupPipe ps n = some q := by
  induction ps with
  | nil => simp at h
  | cons hd rest ih =>
    obtain ⟨k, w⟩ := hd
    rcases List.mem_cons.mp h with h | h
    · cases h
      simp [lookupPipe]
    · by_cases hk : k = n
      · exfalso
        have : n ∈ rest.map Prod.fst := fst_mem_keys h
        rw [List.map_cons, List.nodup_cons] at hnd
        exact hnd.1 (hk ▸ this)
      · rw [List.map_cons, List.nodup_cons] at hnd
        rw [lookupPipe, if_neg hk]
        exact ih hnd.2 h

theorem lookupPipe_append (ps qs : List (String × List Nat)) (m : String) :
    lookupPipe (ps ++ qs) m =
      match lookupPipe ps m with
      | some q => some q
      | none => lookupPipe qs m := by
  induction ps with
  | nil => simp [lookupPipe]
  | cons hd rest ih =>
    obtain ⟨k, q⟩ := hd
    by_cases hk : k = m
    · simp [lookupPipe, hk]
    · simp [lookupPipe, hk, ih]

theorem lookup_getOrCreate_self (ps : List (String × List Nat)) (n : String) :
    lookupPipe (getOrCreate ps n) n = some ((lookupPipe ps n).getD []) := by
  rw [getOrCreate]
  cases hl : lookupPipe ps n with
  | none => rw [lookupPipe_append, hl]; simp [lookupPipe]
  | some q => simp [hl]

theorem lookup_getOrCreate_ne (ps : List (String × List Nat)) (n m : String)
    (h : m ≠ n) : lookupPipe (getOrCreate ps n) m = lookupPipe ps m := by
  rw [getOrCreate]
  cases hl : lookupPipe ps n with
  | none =>
    rw [lookupPipe_append]
    cases hm : lookupPipe ps m with
    | none => simp [lookupPipe, Ne.symm h]
    | some q => simp
  | some q => rfl

theorem mem_getOrCreate {ps : List (String × List Nat)} {n : String}
    {pr : String × List Nat} (h : pr ∈ getOrCreate ps n) : pr ∈ ps ∨ pr = (n, []) := by
  rw [getOrCreate] at h
  cases hl : lookupPipe ps n with
  | none =>
    rw [hl] at h
    rcases List.mem_append.mp h with h | h
    · exact Or.inl h
    · exact Or.inr (by simpa using h)
  | some q =>
    rw [hl] at h
    exact Or.inl h

theorem keys_getOrCreate_nodup {ps : List (String × List Nat)} {n : String}
    (h : (ps.map Prod.fst).Nodup) : ((getOrCreate ps n).map Prod.fst).Nodup := by
  rw [getOrCreate]
  cases hl : lookupPipe ps n with
  | none =>
    have hn : n ∉ ps.map Prod.fst := by
      rw [← lookupPipe_isSome_iff, hl]
      simp
    simp only [List.map_append, List.map_cons, List.map_nil]
    rw [List.nodup_append]
    refine ⟨h, List.nodup_singleton n, ?_⟩
    intro a ha hb
    simp at hb
    exact hn (hb ▸ ha)
  | some q => exact h

theorem mem_keys_getOrCreate_self (ps : List (String × List Nat)) (n : String) :
    n ∈ (getOrCreate ps n).map Prod.fst := by
  rw [← lookupPipe_isSome_iff, lookup_getOrCreate_self]
  rfl

/-! ## The scheduler invariant -/

/-- The pipe-table half of the invariant: every pipe member and every
dispatched or in-flight id denotes a registered call; pipe names are unique;
a pipe's members carry that pipe's name and are pairwise distinct; and a
dispatched call sitting in a pipe is that pipe's head (so each pipe holds at
most one dispatched member). -/
structure PipesOk (s : SvcState) : Prop where
  pipeB : ∀ pr ∈ s.pipes, ∀ x ∈ pr.2, x < s.calls.length
  dispB : ∀ x ∈ s.dispatched, x < s.calls.length
  inFlB : ∀ x ∈ s.inFlight, x < s.calls.length
  keysND : (s.pipes.map Prod.fst).Nodup
  names : ∀ pr ∈ s.pipes, ∀ x ∈ pr.2, ∀ c, s.calls[x]? = some c → c.pipeName = pr.1
  pipeND : ∀ pr ∈ s.pipes, pr.2.Nodup
  headOnly : ∀ pr ∈ s.pipes, ∀ x ∈ pr.2, x ∈ s.dispatched → pr.2.head? = some x

/-- The full scheduler invariant. -/
structure Inv (s : SvcState) : Prop where
  pok : PipesOk s
  pendB : ∀ y : Nat, some y ∈ s.pending → y < s.calls.length
  pendD : pendDistinct s.pending
  pendS : ∀ y : Nat, some y ∈ s.pending → y ∉ settledIds s
  settB : ∀ y ∈ settledIds s, y < s.calls.length
  settA : ∀ y ∈ settledIds s, y ∉ s.abandoned
  pex : ∀ n, (lookupPipe s.pipes n).isSome ↔ (n ≠ "" ∧ ∃ c ∈ s.calls, c.pipeName = n)

theorem inv_init : Inv initState := by
  refine ⟨⟨?_, ?_, ?_, ?_, ?_, ?_, ?_⟩, ?_, ?_, ?_, ?_, ?_, ?_⟩ <;>
    simp [initState, settledIds, pendDistinct, lookupPipe]

theorem tail_not_dispatched {s : SvcState} (hP : PipesOk s) {n : String} {q : List Nat}
    (hl : lookupPipe s.pipes n = some q) : ∀ x ∈ q.tail, x ∉ s.dispatched := by
  intro x hx hdx
  have hmw : (n, q) ∈ s.pipes := mem_of_lookupPipe hl
  cases q with
  | nil => simp at hx
  | cons hq tq =>
    have hx' : x ∈ hq :: tq := List.mem_cons_of_mem _ hx
    have hh := hP.headOnly (n, hq :: tq) hmw x hx' hdx
    simp at hh
    subst hh
    have hnd := hP.pipeND (n, hq :: tq) hmw
    rw [List.nodup_cons] at hnd
    exact hnd.1 hx

theorem pipesOk_shift {s : SvcState} (hP : PipesOk s) {n : String} {q : List Nat}
    (hl : lookupPipe s.pipes n = some q) :
    PipesOk { s with pipes := setPipe s.pipes n q.tail } := by
  have hkeys : n ∈ s.pipes.map Prod.fst := by
    rw [← lookupPipe_isSome_iff, hl]
    rfl
  have hmw : (n, q) ∈ s.pipes := mem_of_lookupPipe hl
  refine ⟨?_, hP.dispB, hP.inFlB, ?_, ?_, ?_, ?_⟩
  · intro pr hpr x hx
    rcases mem_setPipe hpr with rfl | hpr
    · exact hP.pipeB (n, q) hmw x (List.mem_of_mem_tail hx)
    · exact hP.pipeB pr hpr x hx
  · show ((setPipe s.pipes n q.tail).map Prod.fst).Nodup
    rw [keys_setPipe_of_mem hkeys]
    exact hP.keysND
  · intro pr hpr x hx c hc
    rcases mem_setPipe hpr with rfl | hpr
    · exact hP.names (n, q) hmw x (List.mem_of_mem_tail hx) c hc
    · exact hP.names pr hpr x hx c hc
  · intro pr hpr
    rcases mem_setPipe hpr with rfl | hpr
    · exact (hP.pipeND (n, q) hmw).tail
    · exact hP.pipeND pr hpr
  · intro pr hpr x hx hdx
    rcases mem_setPipe hpr with rfl | hpr
    · exact absurd hdx (tail_not_dispatched hP hl x hx)
    · exact hP.headOnly pr hpr x hx hdx

theorem pipesOk_dispatch_head {s : SvcState} (hP : PipesOk s) {n : String}
    {nh : Nat} {t : List Nat} (hl : lookupPipe s.pipes n = some (nh :: t))
    (hnd : ∀ x ∈ nh :: t, x ∉ s.dispatched) :
    PipesOk (dispatchCall s nh) := by
  have hmw : (n, nh :: t) ∈ s.pipes := mem_of_lookupPipe hl
  have hdlt : nh < s.calls.length := hP.pipeB _ hmw nh (List.mem_cons_self _ _)
  refine ⟨hP.pipeB, ?_, ?_, hP.keysND, hP.names, hP.pipeND, ?_⟩
  · intro x hx
    rcases List.mem_cons.mp hx with rfl | hx
    · exact hdlt
    · exact hP.dispB x hx
  · intro x hx
    rcases List.mem_cons.mp hx with rfl | hx
    · exact hdlt
    · exact hP.inFlB x hx
  · intro pr hpr x hx hdx
    rcases List.mem_cons.mp hdx with hxe | hdx
    · obtain ⟨c, hc⟩ : ∃ c, s.calls[x]? = some c := by
        have hlt := hP.pipeB pr hpr x hx
        exact ⟨s.calls[x], List.getElem?_eq_getElem hlt⟩
      have h1 := hP.names pr hpr x hx c hc
      have h2 := hP.names (n, nh :: t) hmw x (by rw [hxe]; exact List.mem_cons_self nh t) c hc
      obtain ⟨p1, p2⟩ := pr
      simp only [] at h1 h2
      have hp1 : p1 = n := by rw [← h1]; exact h2
      subst hp1
      have hlk := lookup_eq_of_mem_nodup hP.keysND hpr
      rw [hl] at hlk
      cases Option.some.inj hlk
      rw [hxe]
      rfl
    · exact hP.headOnly pr hpr x hx hdx

/-- Everything `deregister` leaves alone, plus the shape of the `pending`
update and the preservation of the pipe-name set. -/
theorem deregister_const {s s' : SvcState} {id : Nat}
    (h : deregister s id = Except.ok s') :
    s'.calls = s.calls ∧ s'.abandoned = s.abandoned ∧ s'.fulfilled = s.fulfilled ∧
      s'.smashed = s.smashed ∧ s'.pending = removePending s.pending id ∧
      s'.pipes.map Prod.fst = s.pipes.map Prod.fst := by
  rw [deregister] at h
  split at h
  · exact absurd h (by simp)
  · rename_i c hcid
    split at h
    · cases Except.ok.inj h
      exact ⟨rfl, rfl, rfl, rfl, rfl, rfl⟩
    · split at h
      · exact absurd h (by simp)
      · rename_i q hlq
        have hkeys : c.pipeName ∈ s.pipes.map Prod.fst := by
          rw [← lookupPipe_isSome_iff, hlq]
          rfl
        split at h
        · cases Except.ok.inj h
          exact ⟨rfl, rfl, rfl, rfl, rfl, keys_setPipe_of_mem hkeys⟩
        · cases Except.ok.inj h
          exact ⟨rfl, rfl, rfl, rfl, rfl, keys_setPipe_of_mem hkeys⟩

theorem getElem?_append_lt {α : Type} {l m : List α} {i : Nat} (h : i < l.length) :
    (l ++ m)[i]? = l[i]? := by
  rw [List.getElem?_append]
  rw [if_pos h]

theorem mem_pipeInsert {q : List Nat} {id x : Nat} {prio : Bool}
    (h : x ∈ pipeInsert q id prio) : x ∈ q ∨ x = id := by
  rw [pipeInsert.eq_def] at h
  split at h
  · cases q with
    | nil => simp at h; exact Or.inr h
    | cons a t =>
      rcases List.mem_cons.mp h with rfl | h
      · exact Or.inl (List.mem_cons_self _ _)
      · rcases List.mem_cons.mp h with rfl | h
        · exact Or.inr rfl
        · exact Or.inl (List.mem_cons_of_mem _ h)
  · rcases List.mem_append.mp h with h | h
    · exact Or.inl h
    · exact Or.inr (by simpa using h)

theorem pipeInsert_nodup {q : List Nat} {id : Nat} {prio : Bool}
    (hnd : q.Nodup) (hid : id ∉ q) : (pipeInsert q id prio).Nodup := by
  rw [pipeInsert.eq_def]
  split
  · cases q with
    | nil => simp
    | cons a t =>
      rw [List.nodup_cons] at hnd
      have hia : id ≠ a := fun h => hid (h ▸ List.mem_cons_self _ _)
      have hit : id ∉ t := fun h => hid (List.mem_cons_of_mem _ h)
      simp only [List.nodup_cons, List.mem_cons]
      refine ⟨?_, ⟨hit, hnd.2⟩⟩
      rintro (h | h)
      · exact hia h.symm
      · exact hnd.1 h
  · rw [List.nodup_append]
    refine ⟨hnd, List.nodup_singleton id, ?_⟩
    intro a ha hb
    simp at hb
    exact hid (hb ▸ ha)

theorem pipeInsert_head {q : List Nat} {id : Nat} {prio : Bool} (hq : q ≠ []) :
    (pipeInsert q id prio).head? = q.head? := by
  rw [pipeInsert.eq_def]
  split
  · cases q with
    | nil => exact absurd rfl hq
    | cons a t => rfl
  · cases q with
    | nil => exact absurd rfl hq
    | cons a t => rfl

theorem pipeInsert_length (q : List Nat) (id : Nat) (prio : Bool) :
    (pipeInsert q id prio).length = q.length + 1 := by
  rw [pipeInsert.eq_def]
  split
  · rename_i hcond
    cases q with
    | nil => simp at hcond
    | cons a t => simp
  · simp

theorem deregister_pipesOk {s s' : SvcState} {id : Nat}
    (hP : PipesOk s) (h : deregister s id = Except.ok s') : PipesOk s' := by
  rw [deregister] at h
  split at h
  · exact absurd h (by simp)
  · rename_i c hcid
    split at h
    · cases Except.ok.inj h
      exact ⟨hP.pipeB, hP.dispB, hP.inFlB, hP.keysND, hP.names, hP.pipeND, hP.headOnly⟩
    · split at h
      · exact absurd h (by simp)
      · rename_i q hlq
        split at h
        · rename_i htail
          cases Except.ok.inj h
          have hs1 := pipesOk_shift hP hlq
          exact ⟨hs1.pipeB, hs1.dispB, hs1.inFlB, hs1.keysND, hs1.names, hs1.pipeND, hs1.headOnly⟩
        · rename_i hq tq htail
          cases Except.ok.inj h
          have hs1 := pipesOk_shift hP hlq
          have hl1 : lookupPipe (setPipe s.pipes c.pipeName q.tail) c.pipeName =
              some (hq :: tq) := by
            rw [lookup_setPipe_self, htail]
          have hnd2 : ∀ x ∈ hq :: tq, x ∉ s.dispatched := by
            intro x hx
            exact tail_not_dispatched hP hlq x (htail ▸ hx)
          have hs2 := pipesOk_dispatch_head hs1 hl1 hnd2
          exact ⟨hs2.pipeB, hs2.dispB, hs2.inFlB, hs2.keysND, hs2.names, hs2.pipeND, hs2.headOnly⟩

/-! ## Registration preserves the invariant -/

theorem pipesOk_extend_calls {s : SvcState} (hP : PipesOk s) (c : CallInfo) :
    PipesOk { s with
      calls := s.calls ++ [c]
      pending := insertSlot s.pending s.calls.length } := by
  have hlen : (s.calls ++ [c]).length = s.calls.length + 1 := by simp
  refine ⟨?_, ?_, ?_, hP.keysND, ?_, hP.pipeND, hP.headOnly⟩
  · intro pr hpr x hx
    show x < (s.calls ++ [c]).length
    rw [hlen]
    exact Nat.lt_succ_of_lt (hP.pipeB pr hpr x hx)
  · intro x hx
    show x < (s.calls ++ [c]).length
    rw [hlen]
    exact Nat.lt_succ_of_lt (hP.dispB x hx)
  · intro x hx
    show x < (s.calls ++ [c]).length
    rw [hlen]
    exact Nat.lt_succ_of_lt (hP.inFlB x hx)
  · intro pr hpr x hx cc hcc
    have hlt := hP.pipeB pr hpr x hx
    have hcc' : (s.calls ++ [c])[x]? = some cc := hcc
    rw [getElem?_append_lt hlt] at hcc'
    exact hP.names pr hpr x hx cc hcc'

theorem pipesOk_dispatch_not_in_pipes {s : SvcState} (hP : PipesOk s) {id : Nat}
    (hlt : id < s.calls.length)
    (hfresh : ∀ pr ∈ s.pipes, id ∉ pr.2) : PipesOk (dispatchCall s id) := by
  refine ⟨hP.pipeB, ?_, ?_, hP.keysND, hP.names, hP.pipeND, ?_⟩
  · intro x hx
    rcases List.mem_cons.mp hx with rfl | hx
    · exact hlt
    · exact hP.dispB x hx
  · intro x hx
    rcases List.mem_cons.mp hx with rfl | hx
    · exact hlt
    · exact hP.inFlB x hx
  · intro pr hpr x hx hdx
    rcases List.mem_cons.mp hdx with hxe | hdx
    · exact absurd (hxe ▸ hx) (hfresh pr hpr)
    · exact hP.headOnly pr hpr x hx hdx

theorem pipesOk_insert_pipe {t : SvcState} (hP : PipesOk t) {n : String} {id : Nat}
    {c : CallInfo} (prio : Bool)
    (hidc : t.calls[id]? = some c) (hcn : c.pipeName = n)
    (hidlt : id < t.calls.length)
    (hndisp : id ∉ t.dispatched)
    (hfresh : ∀ pr ∈ t.pipes, id ∉ pr.2) :
    PipesOk { t with
      pipes := (setPipe (getOrCreate t.pipes n) n
        (pipeInsert ((lookupPipe t.pipes n).getD []) id prio)) } := by
  have hqB : ∀ x ∈ (lookupPipe t.pipes n).getD [], x < t.calls.length := by
    cases hlk : lookupPipe t.pipes n with
    | none => simp
    | some qq =>
      intro x hx
      exact hP.pipeB (n, qq) (mem_of_lookupPipe hlk) x (by simpa using hx)
  have hqN : ∀ x ∈ (lookupPipe t.pipes n).getD [],
      ∀ cc, t.calls[x]? = some cc → cc.pipeName = n := by
    cases hlk : lookupPipe t.pipes n with
    | none => simp
    | some qq =>
      intro x hx cc hcc
      exact hP.names (n, qq) (mem_of_lookupPipe hlk) x (by simpa using hx) cc hcc
  have hqND : ((lookupPipe t.pipes n).getD []).Nodup := by
    cases hlk : lookupPipe t.pipes n with
    | none => simp
    | some qq => exact hP.pipeND (n, qq) (mem_of_lookupPipe hlk)
  have hqH : ∀ x ∈ (lookupPipe t.pipes n).getD [], x ∈ t.dispatched →
      ((lookupPipe t.pipes n).getD []).head? = some x := by
    cases hlk : lookupPipe t.pipes n with
    | none => simp
    | some qq =>
      intro x hx hdx
      exact hP.headOnly (n, qq) (mem_of_lookupPipe hlk) x (by simpa using hx) hdx
  have hidq : id ∉ (lookupPipe t.pipes n).getD [] := by
    cases hlk : lookupPipe t.pipes n with
    | none => simp
    | some qq =>
      intro hmem
      exact hfresh (n, qq) (mem_of_lookupPipe hlk) (by simpa using hmem)
  have hmemch : ∀ pr : String × List Nat,
      pr ∈ setPipe (getOrCreate t.pipes n) n
        (pipeInsert ((lookupPipe t.pipes n).getD []) id prio) →
      pr = (n, pipeInsert ((lookupPipe t.pipes n).getD []) id prio) ∨
        pr ∈ t.pipes ∨ pr = (n, []) := by
    intro pr hpr
    rcases mem_setPipe hpr with h | h
    · exact Or.inl h
    · rcases mem_getOrCreate h with h | h
      · exact Or.inr (Or.inl h)
      · exact Or.inr (Or.inr h)
  refine ⟨?_, hP.dispB, hP.inFlB, ?_, ?_, ?_, ?_⟩
  · intro pr hpr x hx
    rcases hmemch pr hpr with hpr1 | hpr1 | hpr1
    · subst hpr1
      rcases mem_pipeInsert hx with hx | rfl
      · exact hqB x hx
      · exact hidlt
    · exact hP.pipeB pr hpr1 x hx
    · subst hpr1
      simp at hx
  · show ((setPipe (getOrCreate t.pipes n) n _).map Prod.fst).Nodup
    rw [keys_setPipe_of_mem (mem_keys_getOrCreate_self t.pipes n)]
    exact keys_getOrCreate_nodup hP.keysND
  · intro pr hpr x hx cc hcc
    rcases hmemch pr hpr with hpr1 | hpr1 | hpr1
    · subst hpr1
      rcases mem_pipeInsert hx with hx | rfl
      · exact hqN x hx cc hcc
      · rw [hidc] at hcc
        cases Option.some.inj hcc
        exact hcn
    · exact hP.names pr hpr1 x hx cc hcc
    · subst hpr1
      simp at hx
  · intro pr hpr
    rcases hmemch pr hpr with hpr1 | hpr1 | hpr1
    · subst hpr1
      exact pipeInsert_nodup hqND hidq
    · exact hP.pipeND pr hpr1
    · subst hpr1
      simp
  · intro pr hpr x hx hdx
    rcases hmemch pr hpr with hpr1 | hpr1 | hpr1
    · subst hpr1
      rcases mem_pipeInsert hx with hx | rfl
      · have hne : (lookupPipe t.pipes n).getD [] ≠ [] := by
          intro hnil
          rw [hnil] at hx
          simp at hx
        show (pipeInsert _ id prio).head? = some x
        rw [pipeInsert_head hne]
        exact hqH x hx hdx
      · exact absurd hdx hndisp
    · exact hP.headOnly pr hpr1 x hx hdx
    · subst hpr1
      simp at hx

/-- The pending-set, settlement and pipe-existence half of the invariant for
the state reached by slotting a fresh call in, given the pipe half and the
pipe-existence property. -/
theorem inv_rest_of_pipesOk {s : SvcState} (hI : Inv s) (c : CallInfo)
    {ps2 : List (String × List Nat)}
    (hP2 : PipesOk { s with
      calls := s.calls ++ [c]
      pending := insertSlot s.pending s.calls.length
      pipes := ps2 })
    (hpex2 : ∀ n, (lookupPipe ps2 n).isSome ↔
      (n ≠ "" ∧ ∃ cc ∈ s.calls ++ [c], cc.pipeName = n)) :
    Inv { s with
      calls := s.calls ++ [c]
      pending := insertSlot s.pending s.calls.length
      pipes := ps2 } := by
  refine ⟨hP2, ?_, ?_, ?_, ?_, ?_, hpex2⟩
  · intro y hy
    show y < (s.calls ++ [c]).length
    rcases mem_insertSlot hy with rfl | hy
    · simp
    · have := hI.pendB y hy
      simp
      omega
  · exact pendDistinct_insertSlot hI.pendD
      (fun hmem => absurd (hI.pendB _ hmem) (by omega))
  · intro y hy
    rcases mem_insertSlot hy with rfl | hy
    · intro hsm
      exact absurd (hI.settB _ hsm) (by omega)
    · exact hI.pendS y hy
  · intro y hy
    have := hI.settB y hy
    show y < (s.calls ++ [c]).length
    simp
    omega
  · exact hI.settA

theorem inv_dispatch_plain {t : SvcState} (hI : Inv t) {id : Nat}
    (hidlt : id < t.calls.length) (hfresh : ∀ pr ∈ t.pipes, id ∉ pr.2) :
    Inv (dispatchCall t id) :=
  ⟨pipesOk_dispatch_not_in_pipes hI.pok hidlt hfresh, hI.pendB, hI.pendD, hI.pendS,
    hI.settB, hI.settA, hI.pex⟩

theorem applyRegister_inv {s : SvcState} (hI : Inv s) (c : CallInfo) :
    Inv (applyRegister s c) := by
  by_cases hc : c.pipeName = ""
  · -- no pipe: slot in, then dispatch at once
    have he : applyRegister s c =
        dispatchCall
          { s with
            calls := s.calls ++ [c]
            pending := insertSlot s.pending s.calls.length } s.calls.length := by
      rw [applyRegister, registerStep]
      simp [hc]
    have hpex1 : ∀ n, (lookupPipe s.pipes n).isSome ↔
        (n ≠ "" ∧ ∃ cc ∈ s.calls ++ [c], cc.pipeName = n) := by
      intro n
      rw [hI.pex n]
      constructor
      · rintro ⟨hne, cc, hmem, hnm⟩
        exact ⟨hne, cc, List.mem_append_left _ hmem, hnm⟩
      · rintro ⟨hne, cc, hmem, hnm⟩
        rcases List.mem_append.mp hmem with hmem | hmem
        · exact ⟨hne, cc, hmem, hnm⟩
        · simp at hmem
          subst hmem
          rw [hc] at hnm
          exact absurd hnm.symm hne
    have hI1 : Inv { s with
        calls := s.calls ++ [c]
        pending := insertSlot s.pending s.calls.length } :=
      inv_rest_of_pipesOk hI c (pipesOk_extend_calls hI.pok c) hpex1
    rw [he]
    refine inv_dispatch_plain hI1 ?_ ?_
    · show s.calls.length < (s.calls ++ [c]).length
      simp
    · intro pr hpr hmem
      exact absurd (hI.pok.pipeB pr hpr _ hmem) (by omega)
  · -- pipe branch
    have hfresh : ∀ pr ∈ s.pipes, s.calls.length ∉ pr.2 :=
      fun pr hpr hmem => absurd (hI.pok.pipeB pr hpr _ hmem) (by omega)
    have hndisp : s.calls.length ∉ s.dispatched :=
      fun hmem => absurd (hI.pok.dispB _ hmem) (by omega)
    have hP1 := pipesOk_extend_calls hI.pok c
    have hP2 := pipesOk_insert_pipe hP1 c.prioritize
      (List.getElem?_concat_length s.calls c) rfl (by simp) hndisp hfresh
    have hpex2 : ∀ m, (lookupPipe (setPipe (getOrCreate s.pipes c.pipeName) c.pipeName
        (pipeInsert ((lookupPipe s.pipes c.pipeName).getD []) s.calls.length
          c.prioritize)) m).isSome ↔
        (m ≠ "" ∧ ∃ cc ∈ s.calls ++ [c], cc.pipeName = m) := by
      intro m
      by_cases hm : m = c.pipeName
      · subst hm
        rw [lookup_setPipe_self]
        constructor
        · intro _
          exact ⟨hc, c, by simp, rfl⟩
        · intro _
          rfl
      · rw [lookup_setPipe_ne _ _ _ _ hm, lookup_getOrCreate_ne _ _ _ hm, hI.pex m]
        constructor
        · rintro ⟨hne, cc, hmem, hnm⟩
          exact ⟨hne, cc, List.mem_append_left _ hmem, hnm⟩
        · rintro ⟨hne, cc, hmem, hnm⟩
          rcases List.mem_append.mp hmem with hmem | hmem
          · exact ⟨hne, cc, hmem, hnm⟩
          · simp at hmem
            subst hmem
            exact absurd hnm.symm hm
    have hI2 : Inv { s with
        calls := s.calls ++ [c]
        pending := insertSlot s.pending s.calls.length
        pipes := (setPipe (getOrCreate s.pipes c.pipeName) c.pipeName
          (pipeInsert ((lookupPipe s.pipes c.pipeName).getD []) s.calls.length
            c.prioritize)) } :=
      inv_rest_of_pipesOk hI c hP2 hpex2
    have hreg : registerStep s c =
        ({ s with
          calls := s.calls ++ [c]
          pending := insertSlot s.pending s.calls.length
          pipes := (setPipe (getOrCreate s.pipes c.pipeName) c.pipeName
            (pipeInsert ((lookupPipe s.pipes c.pipeName).getD []) s.calls.length
              c.prioritize)) },
        if 1 < (pipeInsert ((lookupPipe s.pipes c.pipeName).getD []) s.calls.length
            c.prioritize).length
        then Outcome.delay else Outcome.proceed) := by
      rw [registerStep]
      simp [hc, lookup_getOrCreate_self]
    rw [applyRegister, hreg]
    by_cases hql : 1 < (pipeInsert ((lookupPipe s.pipes c.pipeName).getD [])
        s.calls.length c.prioritize).length
    · rw [if_pos hql]
      exact hI2
    · rw [if_neg hql]
      show Inv (dispatchCall _ s.calls.length)
      have hq'len := pipeInsert_length ((lookupPipe s.pipes c.pipeName).getD [])
        s.calls.length c.prioritize
      have hq0 : (lookupPipe s.pipes c.pipeName).getD [] = [] := by
        have hz : ((lookupPipe s.pipes c.pipeName).getD []).length = 0 := by omega
        exact List.eq_nil_of_length_eq_zero hz
      have hq'e : pipeInsert ((lookupPipe s.pipes c.pipeName).getD []) s.calls.length
          c.prioritize = [s.calls.length] := by
        rw [hq0, pipeInsert.eq_def]
        simp
      have hl2 : lookupPipe (setPipe (getOrCreate s.pipes c.pipeName) c.pipeName
          (pipeInsert ((lookupPipe s.pipes c.pipeName).getD []) s.calls.length
            c.prioritize)) c.pipeName = some (s.calls.length :: []) := by
        rw [lookup_setPipe_self, hq'e]
      have hnd2 : ∀ x ∈ (s.calls.length :: []), x ∉ s.dispatched := by
        intro x hx
        simp at hx
        subst hx
        exact hndisp
      exact ⟨pipesOk_dispatch_head hI2.pok hl2 hnd2, hI2.pendB, hI2.pendD, hI2.pendS,
        hI2.settB, hI2.settA, hI2.pex⟩

/-! ## Completion, deregistration and abandonment preserve the invariant -/

theorem deregister_inv {s s' : SvcState} {id : Nat} (hI : Inv s)
    (h : deregister s id = Except.ok s') : Inv s' := by
  obtain ⟨hc', hab', hf', hsm', hpend', hkeys'⟩ := deregister_const h
  have hP' := deregister_pipesOk hI.pok h
  have hsett : settledIds s' = settledIds s := by
    simp [settledIds, hf', hsm']
  refine ⟨hP', ?_, ?_, ?_, ?_, ?_, ?_⟩
  · intro y hy
    rw [hpend'] at hy
    rw [hc']
    exact hI.pendB y (mem_removePending hy)
  · rw [hpend']
    exact pendDistinct_removePending hI.pendD
  · intro y hy
    rw [hpend'] at hy
    rw [hsett]
    exact hI.pendS y (mem_removePending hy)
  · intro y hy
    rw [hsett] at hy
    rw [hc']
    exact hI.settB y hy
  · intro y hy
    rw [hsett] at hy
    rw [hab']
    exact hI.settA y hy
  · intro n
    rw [lookupPipe_isSome_iff, hkeys', ← lookupPipe_isSome_iff, hc']
    exact hI.pex n

/-- A state `sMid` that is `s` with `id` marked settled (and possibly an
in-flight entry consumed): deregistering `id` from it yields an invariant
state, provided `id` denotes a real call that was not abandoned. -/
theorem settle_then_dereg_inv {s sMid s' : SvcState} {id : Nat}
    (hI : Inv s) (h : deregister sMid id = Except.ok s')
    (hidlt : id < s.calls.length) (hnab : id ∉ s.abandoned)
    (hcalls : sMid.calls = s.calls) (hpendMid : sMid.pending = s.pending)
    (hpipes : sMid.pipes = s.pipes) (hdisp : sMid.dispatched = s.dispatched)
    (habd : sMid.abandoned = s.abandoned)
    (hifl : ∀ x ∈ sMid.inFlight, x ∈ s.inFlight)
    (hsett : ∀ x : Nat, x ∈ settledIds sMid ↔ x = id ∨ x ∈ settledIds s) :
    Inv s' := by
  have hPM : PipesOk sMid := by
    refine ⟨?_, ?_, ?_, ?_, ?_, ?_, ?_⟩
    · intro pr hpr x hx
      rw [hcalls]
      exact hI.pok.pipeB pr (by rwa [hpipes] at hpr) x hx
    · intro x hx
      rw [hcalls]
      exact hI.pok.dispB x (by rwa [hdisp] at hx)
    · intro x hx
      rw [hcalls]
      exact hI.pok.inFlB x (hifl x hx)
    · rw [hpipes]
      exact hI.pok.keysND
    · intro pr hpr x hx cc hcc
      rw [hcalls] at hcc
      exact hI.pok.names pr (by rwa [hpipes] at hpr) x hx cc hcc
    · intro pr hpr
      exact hI.pok.pipeND pr (by rwa [hpipes] at hpr)
    · intro pr hpr x hx hdx
      exact hI.pok.headOnly pr (by rwa [hpipes] at hpr) x hx (by rwa [hdisp] at hdx)
  obtain ⟨hc', hab', hf', hsm', hpend', hkeys'⟩ := deregister_const h
  have hP' := deregister_pipesOk hPM h
  have hsett' : ∀ x : Nat, x ∈ settledIds s' ↔ x = id ∨ x ∈ settledIds s := by
    intro x
    rw [← hsett x]
    simp [settledIds, hf', hsm']
  have hpendM : pendDistinct sMid.pending := by
    rw [hpendMid]
    exact hI.pendD
  refine ⟨hP', ?_, ?_, ?_, ?_, ?_, ?_⟩
  · intro y hy
    rw [hpend', hpendMid] at hy
    rw [hc', hcalls]
    exact hI.pendB y (mem_removePending hy)
  · rw [hpend']
    exact pendDistinct_removePending hpendM
  · intro y hy
    have hyn : y ≠ id := by
      intro he
      rw [he, hpend'] at hy
      exact not_mem_removePending hpendM hy
    rw [hpend', hpendMid] at hy
    have hold := hI.pendS y (mem_removePending hy)
    intro hin2
    rcases (hsett' y).mp hin2 with he | hin3
    · exact hyn he
    · exact hold hin3
  · intro y hy
    rcases (hsett' y).mp hy with rfl | hy2
    · rw [hc', hcalls]
      exact hidlt
    · rw [hc', hcalls]
      exact hI.settB y hy2
  · intro y hy
    rw [hab', habd]
    rcases (hsett' y).mp hy with rfl | hy2
    · exact hnab
    · exact hI.settA y hy2
  · intro n
    rw [lookupPipe_isSome_iff, hkeys', hpipes, ← lookupPipe_isSome_iff, hc', hcalls]
    exact hI.pex n

theorem completeStep_inv {s s' : SvcState} {id : Nat} {okb : Bool}
    (hI : Inv s) (hin : id ∈ s.inFlight) (h : completeStep s id okb = Except.ok s') :
    Inv s' := by
  rw [completeStep] at h
  split at h
  · cases Except.ok.inj h
    exact ⟨⟨hI.pok.pipeB, hI.pok.dispB,
      fun x hx => hI.pok.inFlB x (List.erase_subset _ _ hx), hI.pok.keysND,
      hI.pok.names, hI.pok.pipeND, hI.pok.headOnly⟩,
      hI.pendB, hI.pendD, hI.pendS, hI.settB, hI.settA, hI.pex⟩
  · rename_i hnab
    have hidlt : id < s.calls.length := hI.pok.inFlB id hin
    cases okb
    · rw [if_neg (by simp)] at h
      replace h : deregister
          { s with inFlight := s.inFlight.erase id, smashed := id :: s.smashed } id =
          Except.ok s' := h
      refine settle_then_dereg_inv hI h hidlt hnab rfl rfl rfl rfl rfl ?_ ?_
      · intro x hx
        exact List.erase_subset _ _ hx
      · intro x
        simp only [settledIds, List.mem_append, List.mem_cons]
        tauto
    · rw [if_pos rfl] at h
      replace h : deregister
          { s with inFlight := s.inFlight.erase id, fulfilled := id :: s.fulfilled } id =
          Except.ok s' := h
      refine settle_then_dereg_inv hI h hidlt hnab rfl rfl rfl rfl rfl ?_ ?_
      · intro x hx
        exact List.erase_subset _ _ hx
      · intro x
        simp only [settledIds, List.mem_append, List.mem_cons]
        tauto

theorem abandonCall_facts {s s' : SvcState} {id : Nat}
    (hI : Inv s) (hpendm : some id ∈ s.pending)
    (h : abandonCall s id = Except.ok s') :
    Inv s' ∧ s'.calls = s.calls ∧ s'.fulfilled = s.fulfilled ∧ s'.smashed = s.smashed ∧
      s'.abandoned = id :: s.abandoned ∧ s'.pending = removePending s.pending id := by
  rw [abandonCall] at h
  obtain ⟨hc', hab', hf', hsm', hpend', hkeys'⟩ := deregister_const h
  have hPab : PipesOk { s with abandoned := id :: s.abandoned } :=
    ⟨hI.pok.pipeB, hI.pok.dispB, hI.pok.inFlB, hI.pok.keysND, hI.pok.names,
      hI.pok.pipeND, hI.pok.headOnly⟩
  have hP' := deregister_pipesOk hPab h
  have hsett : settledIds s' = settledIds s := by
    simp [settledIds, hf', hsm']
  have hidns : id ∉ settledIds s := hI.pendS id hpendm
  refine ⟨⟨hP', ?_, ?_, ?_, ?_, ?_, ?_⟩, hc', hf', hsm', hab', hpend'⟩
  · intro y hy
    rw [hpend'] at hy
    rw [hc']
    exact hI.pendB y (mem_removePending hy)
  · rw [hpend']
    exact pendDistinct_removePending hI.pendD
  · intro y hy
    rw [hpend'] at hy
    rw [hsett]
    exact hI.pendS y (mem_removePending hy)
  · intro y hy
    rw [hsett] at hy
    rw [hc']
    exact hI.settB y hy
  · intro y hy
    rw [hsett] at hy
    rw [hab']
    intro hmem
    rcases List.mem_cons.mp hmem with rfl | hmem
    · exact hidns hy
    · exact hI.settA y hy hmem
  · intro n
    rw [lookupPipe_isSome_iff, hkeys', ← lookupPipe_isSome_iff, hc']
    exact hI.pex n

/-- What one `abandon(method, url)` scan guarantees, by induction on the
remaining fuel: the invariant is preserved, no call record or settlement
changes, abandonment only grows, the pending set only shrinks, and every
slot at or beyond the scan position holding a matching call ends up
abandoned and out of the pending set. -/
theorem abandonFrom_spec (m u : String) :
    ∀ (fuel i : Nat) (s s' : SvcState), Inv s → s.pending.length ≤ i + fuel →
      abandonFrom m u i fuel s = Except.ok s' →
      Inv s' ∧ s'.calls = s.calls ∧ s'.fulfilled = s.fulfilled ∧ s'.smashed = s.smashed ∧
        (∀ x ∈ s.abandoned, x ∈ s'.abandoned) ∧
        (∀ y : Nat, some y ∈ s'.pending → some y ∈ s.pending) ∧
        (∀ j id c, i ≤ j → s.pending[j]? = some (some id) → s.calls[id]? = some c →
          c.method = m → c.url = u → id ∈ s'.abandoned ∧ some id ∉ s'.pending) := by
  intro fuel
  induction fuel with
  | zero =>
    intro i s s' hI hlen h
    rw [abandonFrom] at h
    cases Except.ok.inj h
    refine ⟨hI, rfl, rfl, rfl, fun x hx => hx, fun y hy => hy, ?_⟩
    intro j id c hij hj
    exfalso
    have hjlen : s.pending.length ≤ j := by omega
    rw [List.getElem?_eq_none hjlen] at hj
    cases hj
  | succ fuel ih =>
    intro i s s' hI hlen h
    rw [abandonFrom] at h
    split at h
    · split at h
      · rename_i id0 hslot
        split at h
        · rename_i c0 hc0
          split at h
          · rename_i hmatch
            split at h
            · rename_i s2 hab2
              have hpend0 : some id0 ∈ s.pending := mem_of_getElem?_opt hslot
              obtain ⟨hI2, hc2, hf2, hsm2, hab2', hpend2⟩ := abandonCall_facts hI hpend0 hab2
              have hlen2 : s2.pending.length ≤ (i + 1) + fuel := by
                rw [hpend2, length_removePending]
                omega
              obtain ⟨hI', hcs, hfs, hsms, habm, hpm, hmain⟩ := ih (i + 1) s2 s' hI2 hlen2 h
              refine ⟨hI', by rw [hcs, hc2], by rw [hfs, hf2], by rw [hsms, hsm2], ?_, ?_, ?_⟩
              · intro x hx
                apply habm
                rw [hab2']
                exact List.mem_cons_of_mem _ hx
              · intro y hy
                have hy2 := hpm y hy
                rw [hpend2] at hy2
                exact mem_removePending hy2
              · intro j id c hij hj hcj hm hu
                rcases Nat.eq_or_lt_of_le hij with heq | hij'
                · rw [← heq, hslot] at hj
                  cases Option.some.inj (Option.some.inj hj)
                  constructor
                  · apply habm
                    rw [hab2']
                    exact List.mem_cons_self _ _
                  · intro hmem
                    have hmem2 := hpm _ hmem
                    rw [hpend2] at hmem2
                    exact not_mem_removePending hI.pendD hmem2
                · have hne : id ≠ id0 := by
                    intro he
                    subst he
                    have := hI.pendD i j id hslot hj
                    omega
                  have hj2 : s2.pending[j]? = some (some id) := by
                    rw [hpend2]
                    exact getElem?_removePending_ne hj hne
                  have hcj2 : s2.calls[id]? = some c := by
                    rw [hc2]
                    exact hcj
                  exact hmain j id c (by omega) hj2 hcj2 hm hu
            · exact absurd h (by simp)
          · rename_i hmatch
            obtain ⟨hI', hcs, hfs, hsms, habm, hpm, hmain⟩ := ih (i + 1) s s' hI (by omega) h
            refine ⟨hI', hcs, hfs, hsms, habm, hpm, ?_⟩
            intro j id c hij hj hcj hm hu
            rcases Nat.eq_or_lt_of_le hij with heq | hij'
            · exfalso
              rw [← heq, hslot] at hj
              cases Option.some.inj (Option.some.inj hj)
              rw [hc0] at hcj
              cases Option.some.inj hcj
              exact hmatch ⟨hm, hu⟩
            · exact hmain j id c (by omega) hj hcj hm hu
        · exact absurd h (by simp)
      · rename_i hslot
        obtain ⟨hI', hcs, hfs, hsms, habm, hpm, hmain⟩ := ih (i + 1) s s' hI (by omega) h
        refine ⟨hI', hcs, hfs, hsms, habm, hpm, ?_⟩
        intro j id c hij hj hcj hm hu
        rcases Nat.eq_or_lt_of_le hij with heq | hij'
        · exfalso
          rw [← heq] at hj
          exact hslot id hj
        · exact hmain j id c (by omega) hj hcj hm hu
    · cases Except.ok.inj h
      rename_i hi
      refine ⟨hI, rfl, rfl, rfl, fun x hx => hx, fun y hy => hy, ?_⟩
      intro j id c hij hj
      exfalso
      have hjlen : s.pending.length ≤ j := by omega
      rw [List.getElem?_eq_none hjlen] at hj
      cases hj

/-! ## The invariant over all reachable states, and claim C3 -/

theorem step_inv {s s' : SvcState} (hI : Inv s) (h : Step s s') : Inv s' := by
  cases h with
  | register c => exact applyRegister_inv hI c
  | dereg id hd => exact deregister_inv hI hd
  | complete id okb hin hc => exact completeStep_inv hI hin hc
  | abandon m u ha =>
    exact (abandonFrom_spec m u s.pending.length 0 s s' hI (by omega) ha).1

theorem inv_reachableFrom {s t : SvcState} (hI : Inv s) (h : ReachableFrom s t) : Inv t := by
  induction h with
  | refl => exact hI
  | step _ hs ih => exact step_inv ih hs

theorem inv_reachable {s : SvcState} (h : Reachable s) : Inv s :=
  inv_reachableFrom inv_init h

/-- Claim C3: in every state reachable by any sequence of register,
deregister and abandon operations and transport completions, every named
pipe has at most one member that has been dispatched to the transport, and
that dispatched member is the pipe's current head. -/
theorem C3_pipe_head_only (s : SvcState) (h : Reachable s) :
    ∀ pr ∈ s.pipes,
      (∀ x ∈ pr.2, x ∈ s.dispatched → pr.2.head? = some x) ∧
      (∀ x ∈ pr.2, ∀ y ∈ pr.2, x ∈ s.dispatched → y ∈ s.dispatched → x = y) := by
  have hI := inv_reachable h
  intro pr hpr
  refine ⟨fun x hx hdx => hI.pok.headOnly pr hpr x hx hdx, ?_⟩
  intro x hx y hy hdx hdy
  have h1 := hI.pok.headOnly pr hpr x hx hdx
  have h2 := hI.pok.headOnly pr hpr y hy hdy
  rw [h1] at h2
  exact Option.some.inj h2

theorem C3_witness :
    Reachable (prioScenario "p") ∧
      ∀ pr ∈ (prioScenario "p").pipes,
        (∀ x ∈ pr.2, x ∈ (prioScenario "p").dispatched → pr.2.head? = some x) ∧
        (∀ x ∈ pr.2, ∀ y ∈ pr.2, x ∈ (prioScenario "p").dispatched →
          y ∈ (prioScenario "p").dispatched → x = y) :=
  have hr : Reachable (prioScenario "p") :=
    ReachableFrom.step (ReachableFrom.step (ReachableFrom.step (ReachableFrom.refl _)
      (Step.register _)) (Step.register _)) (Step.register _)
  ⟨hr, C3_pipe_head_only _ hr⟩

/-! ## Claim C5: the `abandon(method, url)` sweep -/

theorem registerStep_abandoned (s : SvcState) (c : CallInfo) :
    ((registerStep s c).1).abandoned = s.abandoned := by
  rw [registerStep]
  by_cases hc : c.pipeName = "" <;> simp [hc]

theorem applyRegister_abandoned (s : SvcState) (c : CallInfo) :
    (applyRegister s c).abandoned = s.abandoned := by
  have h1 := registerStep_abandoned s c
  rw [applyRegister]
  rcases hreg : registerStep s c with ⟨s1, o⟩
  rw [hreg] at h1
  cases o
  · exact h1
  · exact h1

theorem completeStep_abandoned {s s' : SvcState} {id : Nat} {okb : Bool}
    (h : completeStep s id okb = Except.ok s') : s'.abandoned = s.abandoned := by
  rw [completeStep] at h
  split at h
  · cases Except.ok.inj h
    rfl
  · cases okb
    · rw [if_neg (by simp)] at h
      exact (deregister_const h).2.1
    · rw [if_pos rfl] at h
      exact (deregister_const h).2.1

theorem step_abandoned_mono {s s' : SvcState} (hI : Inv s) (h : Step s s') :
    ∀ x ∈ s.abandoned, x ∈ s'.abandoned := by
  cases h with
  | register c =>
    intro x hx
    rw [applyRegister_abandoned]
    exact hx
  | dereg id hd =>
    intro x hx
    rw [(deregister_const hd).2.1]
    exact hx
  | complete id okb hin hc =>
    intro x hx
    rw [completeStep_abandoned hc]
    exact hx
  | abandon m u ha =>
    exact (abandonFrom_spec m u s.pending.length 0 s _ hI (by omega) ha).2.2.2.2.1

theorem reachableFrom_abandoned_mono {s t : SvcState} (hI : Inv s)
    (h : ReachableFrom s t) : ∀ x ∈ s.abandoned, x ∈ t.abandoned := by
  induction h with
  | refl => exact fun x hx => hx
  | step hr hs ih =>
    intro x hx
    exact step_abandoned_mono (inv_reachableFrom hI hr) hs x (ih x hx)

/-- A pipe `p` with an in-flight head (call 0, `POST /save`) and one waiting
member (call 1, `POST /other`). -/
def abandonScenario : SvcState :=
  applyRegister (applyRegister initState ⟨"POST", "/save", "p", false⟩)
    ⟨"POST", "/other", "p", false⟩

/-- The state in which `abandon("POST", "/other")` leaves `abandonScenario`:
the matched (non-head) call 1 is abandoned and removed from the pending set,
but the pipe logic in `deregister` shifts the *head* instead, so the
non-matching, still-in-flight call 0 leaves pipe `p` while the abandoned
call 1 stays in it — and is even dispatched to the transport. -/
def abandonResult : SvcState :=
  ⟨[⟨"POST", "/save", "p", false⟩, ⟨"POST", "/other", "p", false⟩],
   [some 0, none], [("p", [1])], [1, 0], [1, 0], [1], [], []⟩

/-- Claim C5 as stated is false on the code: `abandon("POST", "/other")`
matches exactly the pending call 1, which occupies the non-head position of
pipe `p`; afterwards call 1 is *still a member* of pipe `p` (it is its sole
member), contradicting "the Call is removed … from any Pipe it occupied"
(the pipe's head, call 0, which did not match, was removed instead). -/
theorem C5_counterexample :
    abandonOp abandonScenario "POST" "/other" = Except.ok abandonResult ∧
    abandonScenario.calls[1]? = some ⟨"POST", "/other", "p", false⟩ ∧
    some 1 ∈ abandonScenario.pending ∧
    lookupPipe abandonScenario.pipes "p" = some [0, 1] ∧
    1 ∈ abandonResult.abandoned ∧
    lookupPipe abandonResult.pipes "p" = some [1] ∧
    some 1 ∉ abandonResult.pending := by
  refine ⟨by rfl, by rfl, by decide, by rfl, by decide, by rfl, by decide⟩

/-- Claim C5, amended to what the code does: `abandon(m, u)` invokes
`abandon()` on every currently-pending call whose `(method, url)` pair
matches; each such call is marked abandoned, is removed from the Pending
Set, and its promise remains unsettled (never fulfilled nor rejected) in
every later reachable state.  (The original claim's "removed from any Pipe
it occupied" clause is dropped: deregistration removes its Pipe's *head*,
so only a matched call that is the head leaves its pipe.) -/
theorem C5_abandon_amended {s s' : SvcState} {m u : String}
    (hr : Reachable s) (h : abandonOp s m u = Except.ok s')
    {id : Nat} {c : CallInfo} (hpend : some id ∈ s.pending)
    (hc : s.calls[id]? = some c) (hm : c.method = m) (hu : c.url = u) :
    id ∈ s'.abandoned ∧ some id ∉ s'.pending ∧
      ∀ s'', ReachableFrom s' s'' → id ∉ settledIds s'' := by
  have hI := inv_reachable hr
  obtain ⟨j, hj⟩ := List.mem_iff_getElem?.mp hpend
  obtain ⟨hI', hcs, hfs, hsms, habm, hpm, hmain⟩ :=
    abandonFrom_spec m u s.pending.length 0 s s' hI (by omega) h
  obtain ⟨hab, hnp⟩ := hmain j id c (by omega) hj hc hm hu
  refine ⟨hab, hnp, ?_⟩
  intro s'' hrf
  have hr' : Reachable s' := ReachableFrom.step hr (Step.abandon m u h)
  have hI'' := inv_reachable (ReachableFrom.trans hr' hrf)
  have hab'' : id ∈ s''.abandoned := reachableFrom_abandoned_mono hI' hrf id hab
  intro hsett
  exact hI''.settA id hsett hab''

theorem C5_witness :
    Reachable abandonScenario ∧
      abandonOp abandonScenario "POST" "/other" = Except.ok abandonResult ∧
      some 1 ∈ abandonScenario.pending ∧
      (1 ∈ abandonResult.abandoned ∧ some 1 ∉ abandonResult.pending ∧
        ∀ s'', ReachableFrom abandonResult s'' → 1 ∉ settledIds s'') :=
  have hr : Reachable abandonScenario :=
    ReachableFrom.step (ReachableFrom.step (ReachableFrom.refl _) (Step.register _))
      (Step.register _)
  have hop : abandonOp abandonScenario "POST" "/other" = Except.ok abandonResult := by rfl
  have hp1 : some 1 ∈ abandonScenario.pending := by decide
  ⟨hr, hop, hp1, C5_abandon_amended hr hop hp1 rfl rfl rfl⟩

/-! ## Claim C8: `pipeLength` -/

/-- Claim C8: over every reachable state, `pipeLength(name)` succeeds
exactly when some call has ever been registered under that (necessarily
non-empty) pipe name — pipes are created lazily and persist even when
emptied — and when it succeeds it returns the pipe's current length;
moreover deregistration never deletes a pipe, so it never changes which
names are queryable. -/
theorem C8_pipeLength (s : SvcState) (n : String) (h : Reachable s) :
    ((∃ k, pipeLengthOp s n = Except.ok k) ↔
      (n ≠ "" ∧ ∃ c ∈ s.calls, c.pipeName = n)) ∧
    (∀ q, lookupPipe s.pipes n = some q → pipeLengthOp s n = Except.ok q.length) ∧
    (∀ id s', deregister s id = Except.ok s' →
      ((∃ k, pipeLengthOp s' n = Except.ok k) ↔ (∃ k, pipeLengthOp s n = Except.ok k))) := by
  have hI := inv_reachable h
  have hiff : ∀ t : SvcState,
      (∃ k, pipeLengthOp t n = Except.ok k) ↔ (lookupPipe t.pipes n).isSome = true := by
    intro t
    rw [pipeLengthOp]
    cases hl : lookupPipe t.pipes n with
    | none => simp
    | some q => simp
  refine ⟨?_, ?_, ?_⟩
  · rw [hiff s]
    exact hI.pex n
  · intro q hq
    rw [pipeLengthOp, hq]
  · intro id s' hd
    rw [hiff s', hiff s, lookupPipe_isSome_iff, lookupPipe_isSome_iff,
      (deregister_const hd).2.2.2.2.2]

/-- The state left by registering one call on pipe `p` and completing it:
the pipe exists and is empty. -/
def emptiedPipeState : SvcState :=
  ⟨[⟨"GET", "/a", "p", false⟩], [none], [("p", [])], [0], [], [], [0], []⟩

theorem C8_witness :
    Reachable emptiedPipeState ∧
      ((∃ k, pipeLengthOp emptiedPipeState "p" = Except.ok k) ↔
        (("p" : String) ≠ "" ∧ ∃ c ∈ emptiedPipeState.calls, c.pipeName = "p")) ∧
      pipeLengthOp emptiedPipeState "p" = Except.ok 0 :=
  have hr : Reachable emptiedPipeState :=
    ReachableFrom.step
      (ReachableFrom.step (ReachableFrom.refl _)
        (Step.register ⟨"GET", "/a", "p", false⟩))
      (Step.complete 0 true (by decide) (by rfl))
  ⟨hr, (C8_pipeLength emptiedPipeState "p" hr).1, by rfl⟩

end AsyncService
